import Mathlib

/-!
Shallow embedding of the structural_cron library (src/expr.rs, src/format.rs):
a cron-expression data model, its matcher, its parser and its formatter,
together with proofs of the specified properties.

Strings are modelled as lists of characters; the Rust string primitives used
by the source (split on a character predicate, split_once, rsplit_once,
split(','), u8::from_str, u8 display) are modelled explicitly.  Arithmetic is
on Nat with the u8 overflow checks made explicit where the source performs
them.  The one runtime fault reachable in the source (remainder by a zero
step in StepValue::check) is modelled by returning none from the checker.
-/

namespace StructuralCron

/-- Model of Rust char::is_ascii_whitespace: space, tab, line feed,
form feed, carriage return. -/
def isWsChar (c : Char) : Bool :=
  c == ' ' || c == '\t' || c == '\n' || c == '\x0C' || c == '\r'

/-- Decimal digit character for a digit value below ten. -/
def digitChar (d : Nat) : Char := Char.ofNat (48 + d)

/-- Fueled decimal printer; with fuel above n it prints the usual decimal
digits of n, most significant first.  Models Rust u8 Display. -/
def natReprAux : Nat → Nat → List Char
  | 0, _ => []
  | fuel + 1, n =>
    if n < 10 then [digitChar n]
    else natReprAux fuel (n / 10) ++ [digitChar (n % 10)]

/-- Decimal representation of a natural number (models Rust u8 Display,
used by the formatter on values that fit in a u8). -/
def natRepr (n : Nat) : List Char := natReprAux (n + 1) n

/-- Digit-accumulation loop of Rust u8::from_str with the checked
multiplication/addition made explicit: fails on a non-digit or when the
accumulated value leaves the u8 range. -/
def parseDigits : List Char → Nat → Option Nat
  | [], acc => some acc
  | c :: cs, acc =>
    if c.isDigit then
      if 255 < acc * 10 + (c.toNat - 48) then none
      else parseDigits cs (acc * 10 + (c.toNat - 48))
    else none

/-- Model of Rust str::parse::[u8]: an optional leading plus sign followed by
one or more decimal digits, value at most 255; anything else fails. -/
def parseU8 : List Char → Option Nat
  | [] => none
  | c :: cs =>
    if c = '+' then
      match cs with
      | [] => none
      | _ :: _ => parseDigits cs 0
    else parseDigits (c :: cs) 0

/-- Model of Rust str::split on a character predicate: splits at every
matching character and keeps empty tokens (so consecutive separators and
leading/trailing separators yield empty tokens). -/
def splitPred (p : Char → Bool) : List Char → List (List Char)
  | [] => [[]]
  | c :: cs =>
    if p c then [] :: splitPred p cs
    else (c :: (splitPred p cs).headD []) :: (splitPred p cs).tail

/-- Model of Rust str::split_once: splits at the first occurrence of sep,
returning the pieces before and after it. -/
def splitOnce (sep : Char) : List Char → Option (List Char × List Char)
  | [] => none
  | c :: cs =>
    if c = sep then some ([], cs)
    else
      match splitOnce sep cs with
      | none => none
      | some (a, b) => some (c :: a, b)

/-- Model of Rust str::rsplit_once: splits at the last occurrence of sep. -/
def rsplitOnce (sep : Char) (l : List Char) : Option (List Char × List Char) :=
  match splitOnce sep l.reverse with
  | none => none
  | some (a, b) => some (b.reverse, a.reverse)

/-- Join a list of tokens with a separator between consecutive tokens
(models the formatter's join of list items and of the six fields). -/
def joinSep (sep : List Char) : List (List Char) → List Char
  | [] => []
  | [x] => x
  | x :: xs => x ++ sep ++ joinSep sep xs

/-- One item of a cron list field: a bare value or a bare inclusive range
(Rust enum ListValue). -/
inductive ListValue where
  | value (v : Nat)
  | range (lo hi : Nat)
deriving DecidableEq

/-- Base of a cron step field: the whole domain or an inclusive range
(Rust enum StepValue). -/
inductive StepValue where
  | all
  | range (lo hi : Nat)
deriving DecidableEq

/-- One cron field (Rust enum Field): wildcard, single value, inclusive
range, list of two or more items, or step expression. -/
inductive Field where
  | all
  | value (v : Nat)
  | range (lo hi : Nat)
  | list (items : List ListValue)
  | step (sv : StepValue) (s : Nat)
deriving DecidableEq

/-- A parsed cron expression: six fields (Rust struct CronExpr). -/
structure CronExpr where
  second : Field
  minute : Field
  hour : Field
  day : Field
  month : Field
  day_of_week : Field
deriving DecidableEq

/-- The months (Rust enum Month). -/
inductive Month where
  | jan | feb | mar | apr | may | jun | jul | aug | sep | oct | nov | dec
deriving DecidableEq

/-- Canonical integer encoding of a month, January = 1 (Rust impl
Into(u8) for Month). -/
def Month.toU8 : Month → Nat
  | .jan => 1 | .feb => 2 | .mar => 3 | .apr => 4 | .may => 5 | .jun => 6
  | .jul => 7 | .aug => 8 | .sep => 9 | .oct => 10 | .nov => 11 | .dec => 12

/-- The days of the week (Rust enum DayOfWeek). -/
inductive DayOfWeek where
  | sun | mon | tue | wed | thu | fri | sat
deriving DecidableEq

/-- Canonical integer encoding of a weekday, Sunday = 0 (Rust impl
Into(u8) for DayOfWeek). -/
def DayOfWeek.toU8 : DayOfWeek → Nat
  | .sun => 0 | .mon => 1 | .tue => 2 | .wed => 3
  | .thu => 4 | .fri => 5 | .sat => 6

/-- The time record handed to the matcher (Rust struct DateTime). -/
structure DateTime where
  second : Nat
  minute : Nat
  hour : Nat
  day : Nat
  month : Month
  day_of_week : DayOfWeek

/-- Parse error taxonomy (Rust enum ParseError). -/
inductive ParseError where
  | empty
  | field
  | incomplete
deriving DecidableEq

instance {ε α : Type} [DecidableEq ε] [DecidableEq α] : DecidableEq (Except ε α) := fun a b =>
  match a, b with
  | .ok x, .ok y =>
    if h : x = y then .isTrue (congrArg Except.ok h)
    else .isFalse (fun hc => h (Except.ok.inj hc))
  | .error x, .error y =>
    if h : x = y then .isTrue (congrArg Except.error h)
    else .isFalse (fun hc => h (Except.error.inj hc))
  | .ok _, .error _ => .isFalse (fun hc => Except.noConfusion hc)
  | .error _, .ok _ => .isFalse (fun hc => Except.noConfusion hc)

/-- Matcher for one list item (Rust ListValue::check): equality for a value,
inclusive containment for a range. -/
def ListValue.check : ListValue → Nat → Bool
  | .value v, x => decide (v = x)
  | .range lo hi, x => decide (lo ≤ x ∧ x ≤ hi)

/-- Matcher for a step field (Rust StepValue::check).  Rust computes
value % step (and, inside a range base, (value - start) % step after the
containment test); when step = 0 the remainder operation panics, modelled
here by none.  The containment test runs before the subtraction, so the
subtraction is only reached with start ≤ value. -/
def StepValue.check : StepValue → Nat → Nat → Option Bool
  | .all, step, value =>
    if step = 0 then none else some (decide (value % step = 0))
  | .range lo hi, step, value =>
    if lo ≤ value ∧ value ≤ hi then
      if step = 0 then none else some (decide ((value - lo) % step = 0))
    else some false

/-- Matcher for one field (Rust Field::check); only the step case can
fault, every other case returns some. -/
def Field.check : Field → Nat → Option Bool
  | .all, _ => some true
  | .value v, x => some (decide (v = x))
  | .range lo hi, x => some (decide (lo ≤ x ∧ x ≤ hi))
  | .list items, x => some (items.any (fun it => it.check x))
  | .step sv s, x => sv.check s x

/-- Short-circuit conjunction on possibly-faulting booleans: models Rust
&& chaining where the left operand may panic (none) or yield false, in
which case the right operand is never evaluated. -/
def andThen (a : Option Bool) (b : Unit → Option Bool) : Option Bool :=
  match a with
  | none => none
  | some false => some false
  | some true => b ()

/-- The matcher entry point (Rust CronExpr::check_time): the short-circuit
conjunction of the six per-field checks in field order, the month and
weekday first converted to their integer encodings. -/
def CronExpr.check_time (e : CronExpr) (dt : DateTime) : Option Bool :=
  andThen (e.second.check dt.second) fun _ =>
  andThen (e.minute.check dt.minute) fun _ =>
  andThen (e.hour.check dt.hour) fun _ =>
  andThen (e.day.check dt.day) fun _ =>
  andThen (e.month.check dt.month.toU8) fun _ =>
  e.day_of_week.check dt.day_of_week.toU8

/-- Range parser (Rust parse_range): split at the first dash, both sides
must parse as u8; no ordering validation. -/
def parse_range (l : List Char) : Option (Nat × Nat) :=
  match splitOnce '-' l with
  | none => none
  | some (s, e) =>
    match parseU8 s, parseU8 e with
    | some sv, some ev => some (sv, ev)
    | _, _ => none

/-- Step parser (Rust parse_step): split at the last slash; the right part
must parse as u8; the left part is a star (step over all) or a range. -/
def parse_step (l : List Char) : Option Field :=
  match rsplitOnce '/' l with
  | none => none
  | some (range, step) =>
    match parseU8 step with
    | none => none
    | some s =>
      if range = ['*'] then some (.step .all s)
      else
        match parse_range range with
        | none => none
        | some (a, b) => some (.step (.range a b) s)

/-- Item loop of the list parser (the for loop in Rust parse_list): each
comma-separated item is a bare u8 or a range, the first bad item aborts. -/
def parseListItems : List (List Char) → Option (List ListValue)
  | [] => some []
  | item :: rest =>
    match parseU8 item with
    | some v =>
      match parseListItems rest with
      | none => none
      | some tl => some (.value v :: tl)
    | none =>
      match parse_range item with
      | some (a, b) =>
        match parseListItems rest with
        | none => none
        | some tl => some (.range a b :: tl)
      | none => none

/-- List parser (Rust parse_list): split at every comma, parse every item,
then reject lists with fewer than two items. -/
def parse_list (l : List Char) : Option (List ListValue) :=
  match parseListItems (splitPred (fun c => c == ',') l) with
  | none => none
  | some items => if items.length < 2 then none else some items

/-- Field parser (Rust parse_field), trying the forms in the source's fixed
order: star, bare u8, step, list, range; otherwise the Field error. -/
def parse_field (l : List Char) : Except ParseError Field :=
  if l = ['*'] then .ok .all
  else
    match parseU8 l with
    | some v => .ok (.value v)
    | none =>
      match parse_step l with
      | some f => .ok f
      | none =>
        match parse_list l with
        | some items => .ok (.list items)
        | none =>
          match parse_range l with
          | some (a, b) => .ok (.range a b)
          | none => .error .field

/-- One positional step of the parser: take the next token (or fail with
Incomplete) and parse it as a field (propagating its Field error),
returning the rest of the token iterator.  Models
parse_field(expr_fields.next().ok_or(ParseError::Incomplete)?)? in the
source. -/
def parseNext (toks : List (List Char)) : Except ParseError (Field × List (List Char)) :=
  match toks with
  | [] => .error .incomplete
  | t :: ts =>
    match parse_field t with
    | .error e => .error e
    | .ok f => .ok (f, ts)

/-- The parser entry point (Rust CronExpr::parse): reject the empty string
with Empty, split at every ASCII whitespace character, then consume and
parse six tokens positionally; tokens beyond the sixth are never consumed. -/
def CronExpr.parse (l : List Char) : Except ParseError CronExpr :=
  if l = [] then .error .empty
  else
    match parseNext (splitPred isWsChar l) with
    | .error e => .error e
    | .ok (second, toks) =>
      match parseNext toks with
      | .error e => .error e
      | .ok (minute, toks) =>
        match parseNext toks with
        | .error e => .error e
        | .ok (hour, toks) =>
          match parseNext toks with
          | .error e => .error e
          | .ok (day, toks) =>
            match parseNext toks with
            | .error e => .error e
            | .ok (month, toks) =>
              match parseNext toks with
              | .error e => .error e
              | .ok (day_of_week, _) =>
                .ok ⟨second, minute, hour, day, month, day_of_week⟩

/-- Formatter for a range (Rust write_range). -/
def write_range (lo hi : Nat) : List Char := natRepr lo ++ '-' :: natRepr hi

/-- Formatter for a list item (Rust write_list_value). -/
def write_list_value : ListValue → List Char
  | .value v => natRepr v
  | .range lo hi => write_range lo hi

/-- Formatter for a step field (Rust write_step_value). -/
def write_step_value (sv : StepValue) (s : Nat) : List Char :=
  (match sv with
   | .all => ['*']
   | .range lo hi => write_range lo hi) ++ '/' :: natRepr s

/-- Formatter for one field (Rust write_field). -/
def write_field : Field → List Char
  | .all => ['*']
  | .value v => natRepr v
  | .range lo hi => write_range lo hi
  | .list items => joinSep [','] (items.map write_list_value)
  | .step sv s => write_step_value sv s

/-- The formatter entry point (Rust impl ToString for CronExpr): the six
formatted fields joined by single spaces. -/
def CronExpr.to_string (e : CronExpr) : List Char :=
  write_field e.second ++ ' ' ::
  (write_field e.minute ++ ' ' ::
  (write_field e.hour ++ ' ' ::
  (write_field e.day ++ ' ' ::
  (write_field e.month ++ ' ' ::
  write_field e.day_of_week))))

/-- Well-formedness of a list item as established by the parser: the
numeric leaves fit in a u8. -/
def ListValue.Wf : ListValue → Prop
  | .value v => v ≤ 255
  | .range lo hi => lo ≤ 255 ∧ hi ≤ 255

/-- Well-formedness of a step base as established by the parser. -/
def StepValue.Wf : StepValue → Prop
  | .all => True
  | .range lo hi => lo ≤ 255 ∧ hi ≤ 255

/-- Well-formedness of a field as established by the parser: numeric
leaves fit in a u8 and a list holds at least two items. -/
def Field.Wf : Field → Prop
  | .all => True
  | .value v => v ≤ 255
  | .range lo hi => lo ≤ 255 ∧ hi ≤ 255
  | .list items => 2 ≤ items.length ∧ ∀ it ∈ items, it.Wf
  | .step sv s => sv.Wf ∧ s ≤ 255

/-- Well-formedness of a parsed expression: all six fields well formed. -/
def CronExpr.Wf (e : CronExpr) : Prop :=
  e.second.Wf ∧ e.minute.Wf ∧ e.hour.Wf ∧ e.day.Wf ∧ e.month.Wf ∧ e.day_of_week.Wf

/-- The plurality property of a field: if it is a list, it has at least
two items. -/
def Field.listOk (f : Field) : Prop :=
  ∀ items, f = .list items → 2 ≤ items.length

/-! Character and digit lemmas. -/

lemma digitChar_isDigit {d : Nat} (h : d < 10) : (digitChar d).isDigit = true := by
  interval_cases d <;> decide

lemma natReprAux_digits (fuel : Nat) : ∀ (n : Nat) (c : Char), c ∈ natReprAux fuel n →
    c.isDigit = true := by
  induction fuel with
  | zero => intro n c hc; simp [natReprAux] at hc
  | succ fuel ih =>
    intro n c hc
    simp only [natReprAux] at hc
    by_cases h : n < 10
    · rw [if_pos h] at hc
      rcases List.mem_singleton.mp hc with rfl
      exact digitChar_isDigit h
    · rw [if_neg h] at hc
      rcases List.mem_append.mp hc with h1 | h2
      · exact ih _ c h1
      · rcases List.mem_singleton.mp h2 with rfl
        exact digitChar_isDigit (Nat.mod_lt _ (by omega))

lemma natRepr_digits (n : Nat) : ∀ c ∈ natRepr n, c.isDigit = true :=
  fun c hc => natReprAux_digits (n + 1) n c hc

lemma ne_of_isDigit {c d : Char} (h : c.isDigit = true) (hd : d.isDigit = false) : c ≠ d := by
  rintro rfl
  rw [h] at hd
  exact Bool.noConfusion hd

lemma isWsChar_eq_false_of_isDigit {c : Char} (h : c.isDigit = true) : isWsChar c = false := by
  rcases hb : isWsChar c with _ | _
  · rfl
  · exfalso
    have hmem : c = ' ' ∨ c = '\t' ∨ c = '\n' ∨ c = '\x0C' ∨ c = '\r' := by
      simpa [isWsChar, or_assoc] using hb
    rcases hmem with rfl | rfl | rfl | rfl | rfl <;> exact absurd h (by decide)

/-! Lemmas about the model of u8 parsing. -/

set_option maxRecDepth 4000 in
lemma parseU8_natRepr_fin : ∀ n : Fin 256, parseU8 (natRepr n.val) = some n.val := by decide

lemma parseU8_natRepr {n : Nat} (h : n ≤ 255) : parseU8 (natRepr n) = some n :=
  parseU8_natRepr_fin ⟨n, by omega⟩

lemma parseDigits_le : ∀ (l : List Char) (acc n : Nat), acc ≤ 255 →
    parseDigits l acc = some n → n ≤ 255 := by
  intro l
  induction l with
  | nil =>
    intro acc n h hp
    simp only [parseDigits, Option.some.injEq] at hp
    omega
  | cons c cs ih =>
    intro acc n h hp
    simp only [parseDigits] at hp
    by_cases hd : c.isDigit
    · rw [if_pos hd] at hp
      by_cases hov : 255 < acc * 10 + (c.toNat - 48)
      · rw [if_pos hov] at hp; exact absurd hp (by simp)
      · rw [if_neg hov] at hp; exact ih _ n (by omega) hp
    · rw [if_neg hd] at hp; exact absurd hp (by simp)

lemma parseU8_le {l : List Char} {n : Nat} (h : parseU8 l = some n) : n ≤ 255 := by
  cases l with
  | nil => simp [parseU8] at h
  | cons c cs =>
    simp only [parseU8] at h
    by_cases hc : c = '+'
    · rw [if_pos hc] at h
      cases cs with
      | nil => exact absurd h (by simp)
      | cons d ds => exact parseDigits_le _ _ _ (by omega) h
    · rw [if_neg hc] at h
      exact parseDigits_le _ _ _ (by omega) h

lemma parseDigits_none {c : Char} (hd : c.isDigit = false) :
    ∀ l : List Char, c ∈ l → ∀ acc, parseDigits l acc = none := by
  intro l
  induction l with
  | nil => intro h; exact absurd h (by simp)
  | cons a as ih =>
    intro hc acc
    simp only [parseDigits]
    by_cases ha : a.isDigit
    · rw [if_pos ha]
      have hmem : c ∈ as := by
        rcases List.mem_cons.mp hc with rfl | h2
        · rw [ha] at hd; exact absurd hd (by simp)
        · exact h2
      by_cases hov : 255 < acc * 10 + (a.toNat - 48)
      · rw [if_pos hov]
      · rw [if_neg hov]; exact ih hmem _
    · rw [if_neg ha]

lemma parseU8_none {l : List Char} {c : Char} (hc : c ∈ l) (hplus : c ≠ '+')
    (hd : c.isDigit = false) : parseU8 l = none := by
  cases l with
  | nil => rfl
  | cons a as =>
    simp only [parseU8]
    by_cases ha : a = '+'
    · rw [if_pos ha]
      cases as with
      | nil => rfl
      | cons b bs =>
        have hmem : c ∈ b :: bs := by
          rcases List.mem_cons.mp hc with rfl | h2
          · exact absurd ha hplus
          · exact h2
        exact parseDigits_none hd _ hmem 0
    · rw [if_neg ha]
      exact parseDigits_none hd _ hc 0

/-! Lemmas about the split and join primitives. -/

lemma splitOnce_none {sep : Char} : ∀ {l : List Char}, sep ∉ l → splitOnce sep l = none := by
  intro l
  induction l with
  | nil => intro _; rfl
  | cons c cs ih =>
    intro h
    have hne : ¬ c = sep := by rintro rfl; exact h (List.mem_cons_self c cs)
    simp only [splitOnce]
    rw [if_neg hne, ih (fun hm => h (List.mem_cons_of_mem c hm))]

lemma splitOnce_append {sep : Char} : ∀ (a b : List Char), sep ∉ a →
    splitOnce sep (a ++ sep :: b) = some (a, b) := by
  intro a
  induction a with
  | nil => intro b _; simp [splitOnce]
  | cons c cs ih =>
    intro b h
    have hne : ¬ c = sep := by rintro rfl; exact h (List.mem_cons_self c cs)
    simp only [List.cons_append, splitOnce, List.append_eq]
    rw [if_neg hne, ih b (fun hm => h (List.mem_cons_of_mem c hm))]

lemma rsplitOnce_none {sep : Char} {l : List Char} (h : sep ∉ l) : rsplitOnce sep l = none := by
  unfold rsplitOnce
  rw [splitOnce_none (by simpa using h)]

lemma rsplitOnce_append {sep : Char} (a b : List Char) (h : sep ∉ b) :
    rsplitOnce sep (a ++ sep :: b) = some (a, b) := by
  unfold rsplitOnce
  have hrev : (a ++ sep :: b).reverse = b.reverse ++ sep :: a.reverse := by
    simp [List.reverse_append]
  rw [hrev, splitOnce_append _ _ (by simpa using h)]
  simp

lemma splitPred_ne_nil (p : Char → Bool) (l : List Char) : splitPred p l ≠ [] := by
  cases l with
  | nil => simp [splitPred]
  | cons c cs =>
    simp only [splitPred]
    by_cases hc : p c = true
    · rw [if_pos hc]; simp
    · rw [if_neg hc]; simp

lemma splitPred_noSep (p : Char → Bool) : ∀ l : List Char, (∀ c ∈ l, p c = false) →
    splitPred p l = [l] := by
  intro l
  induction l with
  | nil => intro _; rfl
  | cons c cs ih =>
    intro h
    have hc : p c = false := h c (List.mem_cons_self c cs)
    have hcs := ih (fun d hd => h d (List.mem_cons_of_mem c hd))
    simp only [splitPred]
    rw [if_neg (by simp [hc]), hcs]
    rfl

lemma splitPred_cons_sep (p : Char → Bool) (c : Char) (l : List Char) (h : p c = true) :
    splitPred p (c :: l) = [] :: splitPred p l := by
  simp only [splitPred]
  rw [if_pos h]

lemma splitPred_append_sep (p : Char → Bool) :
    ∀ (x : List Char) (c : Char) (rest : List Char), (∀ d ∈ x, p d = false) → p c = true →
    splitPred p (x ++ c :: rest) = x :: splitPred p rest := by
  intro x
  induction x with
  | nil =>
    intro c rest _ hc
    simp only [List.nil_append]
    exact splitPred_cons_sep p c rest hc
  | cons a as ih =>
    intro c rest h hc
    have ha : p a = false := h a (List.mem_cons_self a as)
    have hrec := ih c rest (fun d hd => h d (List.mem_cons_of_mem a hd)) hc
    simp only [List.cons_append, splitPred, List.append_eq]
    rw [if_neg (by simp [ha]), hrec]
    rfl

lemma splitPred_sep_exists (p : Char → Bool) :
    ∀ l : List Char, 2 ≤ (splitPred p l).length → ∃ c ∈ l, p c = true := by
  intro l
  induction l with
  | nil => intro h; simp [splitPred] at h
  | cons c cs ih =>
    intro h
    by_cases hc : p c = true
    · exact ⟨c, List.mem_cons_self c cs, hc⟩
    · rcases hsp : splitPred p cs with _ | ⟨t, ts⟩
      · exact absurd hsp (splitPred_ne_nil p cs)
      · have hshape : splitPred p (c :: cs) = (c :: t) :: ts := by
          simp only [splitPred]
          rw [if_neg hc, hsp]
          rfl
        rw [hshape] at h
        simp only [List.length_cons] at h
        obtain ⟨d, hd, hpd⟩ := ih (by rw [hsp]; simp only [List.length_cons]; omega)
        exact ⟨d, List.mem_cons_of_mem c hd, hpd⟩

lemma mem_joinSep {sep : List Char} : ∀ (parts : List (List Char)) (c : Char),
    c ∈ joinSep sep parts → (∃ part ∈ parts, c ∈ part) ∨ c ∈ sep := by
  intro parts
  induction parts with
  | nil => intro c h; simp [joinSep] at h
  | cons x xs ih =>
    intro c h
    cases xs with
    | nil => exact Or.inl ⟨x, by simp, by simpa [joinSep] using h⟩
    | cons y ys =>
      have hsplit : c ∈ x ∨ c ∈ sep ∨ c ∈ joinSep sep (y :: ys) := by
        simpa [joinSep, List.mem_append, or_assoc] using h
      rcases hsplit with h1 | h2 | h3
      · exact Or.inl ⟨x, List.mem_cons_self _ _, h1⟩
      · exact Or.inr h2
      · rcases ih c h3 with ⟨part, hp, hcp⟩ | hs
        · exact Or.inl ⟨part, List.mem_cons_of_mem x hp, hcp⟩
        · exact Or.inr hs

lemma splitPred_joinSep (p : Char → Bool) (sep : Char) (hsep : p sep = true) :
    ∀ parts : List (List Char), parts ≠ [] →
    (∀ part ∈ parts, ∀ c ∈ part, p c = false) →
    splitPred p (joinSep [sep] parts) = parts := by
  intro parts
  induction parts with
  | nil => intro h _; exact absurd rfl h
  | cons x xs ih =>
    intro _ h
    cases xs with
    | nil =>
      simp only [joinSep]
      exact splitPred_noSep p x (h x (List.mem_cons_self x []))
    | cons y ys =>
      have hjoin : joinSep [sep] (x :: y :: ys) = x ++ sep :: joinSep [sep] (y :: ys) := by
        simp [joinSep]
      rw [hjoin,
          splitPred_append_sep p x sep _ (h x (List.mem_cons_self _ _)) hsep,
          ih (by simp) (fun part hp c hcp => h part (List.mem_cons_of_mem x hp) c hcp)]

/-! Character classification of formatter output. -/

lemma write_range_chars (lo hi : Nat) :
    ∀ c ∈ write_range lo hi, c.isDigit = true ∨ c = '-' := by
  intro c hc
  simp only [write_range] at hc
  rcases List.mem_append.mp hc with h1 | h2
  · exact Or.inl (natRepr_digits lo c h1)
  · rcases List.mem_cons.mp h2 with rfl | h3
    · exact Or.inr rfl
    · exact Or.inl (natRepr_digits hi c h3)

lemma write_list_value_chars (it : ListValue) :
    ∀ c ∈ write_list_value it, c.isDigit = true ∨ c = '-' := by
  cases it with
  | value v => intro c hc; exact Or.inl (natRepr_digits v c hc)
  | range lo hi => exact write_range_chars lo hi

lemma write_step_value_chars (sv : StepValue) (s : Nat) :
    ∀ c ∈ write_step_value sv s, c.isDigit = true ∨ c = '-' ∨ c = '/' ∨ c = '*' := by
  intro c hc
  simp only [write_step_value] at hc
  rcases List.mem_append.mp hc with h1 | h2
  · cases sv with
    | all =>
      rcases List.mem_singleton.mp h1 with rfl
      exact Or.inr (Or.inr (Or.inr rfl))
    | range lo hi =>
      rcases write_range_chars lo hi c h1 with hd | hdash
      · exact Or.inl hd
      · exact Or.inr (Or.inl hdash)
  · rcases List.mem_cons.mp h2 with rfl | h3
    · exact Or.inr (Or.inr (Or.inl rfl))
    · exact Or.inl (natRepr_digits s c h3)

lemma write_field_chars (f : Field) :
    ∀ c ∈ write_field f, c.isDigit = true ∨ c = '-' ∨ c = '/' ∨ c = ',' ∨ c = '*' := by
  cases f with
  | all =>
    intro c hc
    rcases List.mem_singleton.mp hc with rfl
    exact Or.inr (Or.inr (Or.inr (Or.inr rfl)))
  | value v => intro c hc; exact Or.inl (natRepr_digits v c hc)
  | range lo hi =>
    intro c hc
    rcases write_range_chars lo hi c hc with hd | hdash
    · exact Or.inl hd
    · exact Or.inr (Or.inl hdash)
  | list items =>
    intro c hc
    rcases mem_joinSep _ c hc with ⟨part, hp, hcp⟩ | hs
    · obtain ⟨it, _, rfl⟩ := List.mem_map.mp hp
      rcases write_list_value_chars it c hcp with hd | hdash
      · exact Or.inl hd
      · exact Or.inr (Or.inl hdash)
    · rcases List.mem_singleton.mp hs with rfl
      exact Or.inr (Or.inr (Or.inr (Or.inl rfl)))
  | step sv s =>
    intro c hc
    rcases write_step_value_chars sv s c hc with hd | hdash | hslash | hstar
    · exact Or.inl hd
    · exact Or.inr (Or.inl hdash)
    · exact Or.inr (Or.inr (Or.inl hslash))
    · exact Or.inr (Or.inr (Or.inr (Or.inr hstar)))

lemma write_field_no_ws (f : Field) : ∀ c ∈ write_field f, isWsChar c = false := by
  intro c hc
  rcases write_field_chars f c hc with hd | rfl | rfl | rfl | rfl
  · exact isWsChar_eq_false_of_isDigit hd
  · decide
  · decide
  · decide
  · decide

/-! Well-formedness of parser output. -/

lemma parse_range_wf {l : List Char} {lo hi : Nat} (h : parse_range l = some (lo, hi)) :
    lo ≤ 255 ∧ hi ≤ 255 := by
  cases hs : splitOnce '-' l with
  | none => simp [parse_range, hs] at h
  | some ab =>
    obtain ⟨a, b⟩ := ab
    cases ha : parseU8 a with
    | none => simp [parse_range, hs, ha] at h
    | some av =>
      cases hb : parseU8 b with
      | none => simp [parse_range, hs, ha, hb] at h
      | some bv =>
        simp only [parse_range, hs, ha, hb, Option.some.injEq, Prod.mk.injEq] at h
        obtain ⟨rfl, rfl⟩ := h
        exact ⟨parseU8_le ha, parseU8_le hb⟩

lemma parse_step_shape {l : List Char} {f : Field} (h : parse_step l = some f) :
    ∃ sv s, f = .step sv s ∧ sv.Wf ∧ s ≤ 255 := by
  unfold parse_step at h
  split at h
  · exact absurd h (by simp)
  · rename_i r st heq
    split at h
    · exact absurd h (by simp)
    · rename_i s hst
      split at h
      · obtain rfl : Field.step .all s = f := by simpa using h
        exact ⟨.all, s, rfl, trivial, parseU8_le hst⟩
      · split at h
        · exact absurd h (by simp)
        · rename_i a b hrg
          obtain rfl : Field.step (.range a b) s = f := by simpa using h
          exact ⟨.range a b, s, rfl, parse_range_wf hrg, parseU8_le hst⟩

lemma parseListItems_wf : ∀ (toks : List (List Char)) (items : List ListValue),
    parseListItems toks = some items →
    items.length = toks.length ∧ ∀ it ∈ items, it.Wf := by
  intro toks
  induction toks with
  | nil =>
    intro items h
    simp only [parseListItems, Option.some.injEq] at h
    subst h
    exact ⟨rfl, by simp⟩
  | cons t ts ih =>
    intro items h
    cases hu : parseU8 t with
    | some v =>
      cases hrest : parseListItems ts with
      | none => simp [parseListItems, hu, hrest] at h
      | some tl =>
        simp only [parseListItems, hu, hrest, Option.some.injEq] at h
        subst h
        obtain ⟨hlen, hwf⟩ := ih tl hrest
        refine ⟨by simp [hlen], ?_⟩
        intro it hit
        rcases List.mem_cons.mp hit with rfl | h2
        · exact parseU8_le hu
        · exact hwf it h2
    | none =>
      cases hr : parse_range t with
      | none => simp [parseListItems, hu, hr] at h
      | some ab =>
        obtain ⟨a, b⟩ := ab
        cases hrest : parseListItems ts with
        | none => simp [parseListItems, hu, hr, hrest] at h
        | some tl =>
          simp only [parseListItems, hu, hr, hrest, Option.some.injEq] at h
          subst h
          obtain ⟨hlen, hwf⟩ := ih tl hrest
          refine ⟨by simp [hlen], ?_⟩
          intro it hit
          rcases List.mem_cons.mp hit with rfl | h2
          · exact parse_range_wf hr
          · exact hwf it h2

lemma parse_list_wf {l : List Char} {items : List ListValue} (h : parse_list l = some items) :
    2 ≤ items.length ∧ ∀ it ∈ items, it.Wf := by
  cases hp : parseListItems (splitPred (fun c => c == ',') l) with
  | none => simp [parse_list, hp] at h
  | some its =>
    simp only [parse_list, hp] at h
    by_cases hlen : its.length < 2
    · rw [if_pos hlen] at h; exact absurd h (by simp)
    · rw [if_neg hlen] at h
      obtain rfl : its = items := by simpa using h
      exact ⟨by omega, (parseListItems_wf _ _ hp).2⟩

lemma parse_field_wf {l : List Char} {f : Field} (h : parse_field l = .ok f) : f.Wf := by
  by_cases hstar : l = ['*']
  · simp only [parse_field, if_pos hstar, Except.ok.injEq] at h
    subst h; trivial
  · cases hu : parseU8 l with
    | some v =>
      simp only [parse_field, if_neg hstar, hu, Except.ok.injEq] at h
      subst h; exact parseU8_le hu
    | none =>
      cases hs : parse_step l with
      | some fs =>
        simp only [parse_field, if_neg hstar, hu, hs, Except.ok.injEq] at h
        subst h
        obtain ⟨sv, s, rfl, hsv, hsle⟩ := parse_step_shape hs
        exact ⟨hsv, hsle⟩
      | none =>
        cases hl : parse_list l with
        | some items =>
          simp only [parse_field, if_neg hstar, hu, hs, hl, Except.ok.injEq] at h
          subst h
          exact parse_list_wf hl
        | none =>
          cases hr : parse_range l with
          | none => simp [parse_field, if_neg hstar, hu, hs, hl, hr] at h
          | some ab =>
            obtain ⟨a, b⟩ := ab
            simp only [parse_field, if_neg hstar, hu, hs, hl, hr, Except.ok.injEq] at h
            subst h
            exact parse_range_wf hr

/-! Inversion and composition lemmas for the whole-expression parser. -/

lemma parseNext_ok {toks : List (List Char)} {f : Field} {rest : List (List Char)}
    (h : parseNext toks = .ok (f, rest)) :
    ∃ t, toks = t :: rest ∧ parse_field t = .ok f := by
  cases toks with
  | nil => exact absurd h (by simp [parseNext])
  | cons t ts =>
    cases hp : parse_field t with
    | error e => simp [parseNext, hp] at h
    | ok g =>
      simp only [parseNext, hp, Except.ok.injEq, Prod.mk.injEq] at h
      obtain ⟨rfl, rfl⟩ := h
      exact ⟨t, rfl, hp⟩

lemma parseNext_cons {t : List Char} {ts : List (List Char)} {f : Field}
    (h : parse_field t = .ok f) : parseNext (t :: ts) = .ok (f, ts) := by
  simp [parseNext, h]

lemma parse_of_tokens {l : List Char} (hl : l ≠ [])
    {t1 t2 t3 t4 t5 t6 : List Char} {rest : List (List Char)}
    (hsp : splitPred isWsChar l = t1 :: t2 :: t3 :: t4 :: t5 :: t6 :: rest)
    {f1 f2 f3 f4 f5 f6 : Field}
    (h1 : parse_field t1 = .ok f1) (h2 : parse_field t2 = .ok f2)
    (h3 : parse_field t3 = .ok f3) (h4 : parse_field t4 = .ok f4)
    (h5 : parse_field t5 = .ok f5) (h6 : parse_field t6 = .ok f6) :
    CronExpr.parse l = .ok ⟨f1, f2, f3, f4, f5, f6⟩ := by
  rw [CronExpr.parse, if_neg hl, hsp]
  simp only [parseNext_cons h1, parseNext_cons h2, parseNext_cons h3,
             parseNext_cons h4, parseNext_cons h5, parseNext_cons h6]

lemma parse_ok_inv {l : List Char} {e : CronExpr} (h : CronExpr.parse l = .ok e) :
    l ≠ [] ∧
    ∃ t1 t2 t3 t4 t5 t6 rest,
      splitPred isWsChar l = t1 :: t2 :: t3 :: t4 :: t5 :: t6 :: rest ∧
      parse_field t1 = .ok e.second ∧ parse_field t2 = .ok e.minute ∧
      parse_field t3 = .ok e.hour ∧ parse_field t4 = .ok e.day ∧
      parse_field t5 = .ok e.month ∧ parse_field t6 = .ok e.day_of_week := by
  by_cases hl : l = []
  · rw [CronExpr.parse, if_pos hl] at h
    exact absurd h (by simp)
  · refine ⟨hl, ?_⟩
    rw [CronExpr.parse, if_neg hl] at h
    split at h
    · exact absurd h (by simp)
    · rename_i f1 toks1 hp1
      split at h
      · exact absurd h (by simp)
      · rename_i f2 toks2 hp2
        split at h
        · exact absurd h (by simp)
        · rename_i f3 toks3 hp3
          split at h
          · exact absurd h (by simp)
          · rename_i f4 toks4 hp4
            split at h
            · exact absurd h (by simp)
            · rename_i f5 toks5 hp5
              split at h
              · exact absurd h (by simp)
              · rename_i f6 toks6 hp6
                obtain rfl : CronExpr.mk f1 f2 f3 f4 f5 f6 = e := by simpa using h
                obtain ⟨t1, hc1, hf1⟩ := parseNext_ok hp1
                obtain ⟨t2, hc2, hf2⟩ := parseNext_ok hp2
                obtain ⟨t3, hc3, hf3⟩ := parseNext_ok hp3
                obtain ⟨t4, hc4, hf4⟩ := parseNext_ok hp4
                obtain ⟨t5, hc5, hf5⟩ := parseNext_ok hp5
                obtain ⟨t6, hc6, hf6⟩ := parseNext_ok hp6
                subst hc6; subst hc5; subst hc4; subst hc3; subst hc2
                exact ⟨t1, t2, t3, t4, t5, t6, toks6, hc1,
                       hf1, hf2, hf3, hf4, hf5, hf6⟩

lemma parse_wf {l : List Char} {e : CronExpr} (h : CronExpr.parse l = .ok e) : e.Wf := by
  obtain ⟨-, t1, t2, t3, t4, t5, t6, rest, -, h1, h2, h3, h4, h5, h6⟩ := parse_ok_inv h
  exact ⟨parse_field_wf h1, parse_field_wf h2, parse_field_wf h3,
         parse_field_wf h4, parse_field_wf h5, parse_field_wf h6⟩

/-! Round trip of a single field through the formatter and the parser. -/

lemma dash_mem_write_range (lo hi : Nat) : ('-' : Char) ∈ write_range lo hi := by
  simp [write_range]

lemma not_mem_write_range {c : Char} (hd : c.isDigit = false) (hc : c ≠ '-') (lo hi : Nat) :
    c ∉ write_range lo hi := by
  intro hm
  rcases write_range_chars lo hi c hm with h1 | rfl
  · rw [hd] at h1; exact Bool.noConfusion h1
  · exact hc rfl

lemma not_mem_natRepr {c : Char} (hd : c.isDigit = false) (n : Nat) : c ∉ natRepr n := by
  intro hm
  have := natRepr_digits n c hm
  rw [hd] at this
  exact Bool.noConfusion this

lemma parseU8_write_range (lo hi : Nat) : parseU8 (write_range lo hi) = none :=
  parseU8_none (dash_mem_write_range lo hi) (by decide) (by decide)

lemma parse_range_write_range {lo hi : Nat} (hlo : lo ≤ 255) (hhi : hi ≤ 255) :
    parse_range (write_range lo hi) = some (lo, hi) := by
  unfold parse_range write_range
  rw [splitOnce_append _ _ (not_mem_natRepr (by decide) lo)]
  simp [parseU8_natRepr hlo, parseU8_natRepr hhi]

lemma parse_step_none {l : List Char} (h : ('/' : Char) ∉ l) : parse_step l = none := by
  unfold parse_step
  rw [rsplitOnce_none h]

lemma comma_beq_false {c : Char} {l : List Char} (h : (',' : Char) ∉ l) (hc : c ∈ l) :
    (c == ',') = false := by
  by_cases hcc : c = ','
  · subst hcc; exact absurd hc h
  · exact beq_eq_false_iff_ne.mpr hcc

lemma parse_list_none {l : List Char} (h : (',' : Char) ∉ l) : parse_list l = none := by
  have hsp : splitPred (fun c => c == ',') l = [l] :=
    splitPred_noSep _ l (fun c hc => comma_beq_false h hc)
  unfold parse_list
  rw [hsp]
  cases hi : parseListItems [l] with
  | none => rfl
  | some items =>
    have hlen : items.length = 1 := by
      simpa using (parseListItems_wf [l] items hi).1
    simp [show items.length < 2 from by omega]

lemma sep_mem_joinSep (sep : Char) : ∀ parts : List (List Char), 2 ≤ parts.length →
    sep ∈ joinSep [sep] parts := by
  intro parts h
  rcases parts with _ | ⟨x, _ | ⟨y, ys⟩⟩
  · simp at h
  · simp at h
  · simp [joinSep]

lemma slash_not_mem_list_join (items : List ListValue) :
    ('/' : Char) ∉ joinSep [','] (items.map write_list_value) := by
  intro hm
  rcases mem_joinSep _ _ hm with ⟨part, hp, hc⟩ | hs
  · obtain ⟨it, _, rfl⟩ := List.mem_map.mp hp
    rcases write_list_value_chars it '/' hc with h1 | h2
    · exact absurd h1 (by decide)
    · exact absurd h2 (by decide)
  · exact absurd (List.mem_singleton.mp hs) (by decide)

lemma parseListItems_write : ∀ items : List ListValue, (∀ it ∈ items, it.Wf) →
    parseListItems (items.map write_list_value) = some items := by
  intro items
  induction items with
  | nil => intro _; rfl
  | cons it its ih =>
    intro h
    have hit : it.Wf := h it (List.mem_cons_self _ _)
    have hrest := ih (fun x hx => h x (List.mem_cons_of_mem _ hx))
    cases it with
    | value v =>
      simp only [List.map_cons, write_list_value, parseListItems]
      rw [parseU8_natRepr hit, hrest]
    | range lo hi =>
      obtain ⟨hlo, hhi⟩ := hit
      simp only [List.map_cons, write_list_value, parseListItems]
      rw [parseU8_write_range, parse_range_write_range hlo hhi, hrest]

lemma parse_list_write {items : List ListValue} (hlen : 2 ≤ items.length)
    (hwf : ∀ it ∈ items, it.Wf) :
    parse_list (joinSep [','] (items.map write_list_value)) = some items := by
  have hsplit : splitPred (fun c => c == ',') (joinSep [','] (items.map write_list_value))
      = items.map write_list_value := by
    apply splitPred_joinSep _ _ (by decide)
    · apply List.length_pos.mp
      rw [List.length_map]
      omega
    · intro part hp c hc
      obtain ⟨it, _, rfl⟩ := List.mem_map.mp hp
      rcases write_list_value_chars it c hc with h1 | rfl
      · exact beq_eq_false_iff_ne.mpr (ne_of_isDigit h1 (by decide))
      · decide
  unfold parse_list
  rw [hsplit, parseListItems_write items hwf]
  simp [show ¬ items.length < 2 from by omega]

lemma parse_field_write {f : Field} (hf : f.Wf) : parse_field (write_field f) = .ok f := by
  cases f with
  | all => rfl
  | value v =>
    have hv : v ≤ 255 := hf
    have hne : ¬ (natRepr v = ['*']) := by
      intro heq
      have hm : ('*' : Char) ∈ natRepr v := by rw [heq]; simp
      exact absurd (natRepr_digits v '*' hm) (by decide)
    simp only [write_field]
    unfold parse_field
    rw [if_neg hne, parseU8_natRepr hv]
  | range lo hi =>
    obtain ⟨hlo, hhi⟩ := hf
    have hdm : ('-' : Char) ∈ write_range lo hi := dash_mem_write_range lo hi
    have hne : ¬ (write_range lo hi = ['*']) := by
      intro heq
      rw [heq] at hdm
      exact absurd (List.mem_singleton.mp hdm) (by decide)
    simp only [write_field]
    unfold parse_field
    rw [if_neg hne, parseU8_none hdm (by decide) (by decide),
        parse_step_none (not_mem_write_range (by decide) (by decide) lo hi),
        parse_list_none (not_mem_write_range (by decide) (by decide) lo hi),
        parse_range_write_range hlo hhi]
  | list items =>
    obtain ⟨hlen, hwf⟩ := hf
    have hparts : (items.map write_list_value).length = items.length := List.length_map _ _
    have hcm : (',' : Char) ∈ joinSep [','] (items.map write_list_value) :=
      sep_mem_joinSep ',' _ (by omega)
    have hne : ¬ (joinSep [','] (items.map write_list_value) = ['*']) := by
      intro heq
      rw [heq] at hcm
      exact absurd (List.mem_singleton.mp hcm) (by decide)
    simp only [write_field]
    unfold parse_field
    rw [if_neg hne, parseU8_none hcm (by decide) (by decide),
        parse_step_none (slash_not_mem_list_join items),
        parse_list_write hlen hwf]
  | step sv s =>
    obtain ⟨hsv, hs⟩ := hf
    cases sv with
    | all =>
      have hsm : ('/' : Char) ∈ write_step_value .all s := by
        simp [write_step_value]
      have hne : ¬ (write_step_value .all s = ['*']) := by
        intro heq
        rw [heq] at hsm
        exact absurd (List.mem_singleton.mp hsm) (by decide)
      have hstep : parse_step (write_step_value .all s) = some (.step .all s) := by
        unfold parse_step write_step_value
        rw [rsplitOnce_append _ _ (not_mem_natRepr (by decide) s)]
        simp [parseU8_natRepr hs]
      simp only [write_field]
      unfold parse_field
      rw [if_neg hne, parseU8_none hsm (by decide) (by decide), hstep]
    | range lo hi =>
      obtain ⟨hlo, hhi⟩ := hsv
      have hsm : ('/' : Char) ∈ write_step_value (.range lo hi) s := by
        simp [write_step_value]
      have hne : ¬ (write_step_value (.range lo hi) s = ['*']) := by
        intro heq
        rw [heq] at hsm
        exact absurd (List.mem_singleton.mp hsm) (by decide)
      have hbne : ¬ (write_range lo hi = ['*']) := by
        intro heq
        have hdm := dash_mem_write_range lo hi
        rw [heq] at hdm
        exact absurd (List.mem_singleton.mp hdm) (by decide)
      have hstep : parse_step (write_step_value (.range lo hi) s)
          = some (.step (.range lo hi) s) := by
        unfold parse_step write_step_value
        rw [rsplitOnce_append _ _ (not_mem_natRepr (by decide) s)]
        simp [parseU8_natRepr hs, hbne, parse_range_write_range hlo hhi]
      simp only [write_field]
      unfold parse_field
      rw [if_neg hne, parseU8_none hsm (by decide) (by decide), hstep]

/-! Round trip of a whole expression. -/

lemma to_string_ne_nil (e : CronExpr) : CronExpr.to_string e ≠ [] := by
  unfold CronExpr.to_string
  intro hnil
  have hlen := congrArg List.length hnil
  simp only [List.length_append, List.length_cons, List.length_nil] at hlen
  omega

lemma splitPred_to_string (e : CronExpr) :
    splitPred isWsChar (CronExpr.to_string e) =
      [write_field e.second, write_field e.minute, write_field e.hour,
       write_field e.day, write_field e.month, write_field e.day_of_week] := by
  unfold CronExpr.to_string
  rw [splitPred_append_sep _ _ _ _ (write_field_no_ws _) (by decide),
      splitPred_append_sep _ _ _ _ (write_field_no_ws _) (by decide),
      splitPred_append_sep _ _ _ _ (write_field_no_ws _) (by decide),
      splitPred_append_sep _ _ _ _ (write_field_no_ws _) (by decide),
      splitPred_append_sep _ _ _ _ (write_field_no_ws _) (by decide),
      splitPred_noSep _ _ (write_field_no_ws _)]

lemma to_string_parse {e : CronExpr} (h : e.Wf) :
    CronExpr.parse (CronExpr.to_string e) = .ok e := by
  obtain ⟨h1, h2, h3, h4, h5, h6⟩ := h
  exact parse_of_tokens (to_string_ne_nil e) (splitPred_to_string e)
    (parse_field_write h1) (parse_field_write h2) (parse_field_write h3)
    (parse_field_write h4) (parse_field_write h5) (parse_field_write h6)

/-! Additional inversion lemmas for the list-plurality claims. -/

lemma parse_field_list_inv {t : List Char} {items : List ListValue}
    (h : parse_field t = .ok (.list items)) : parse_list t = some items := by
  by_cases hstar : t = ['*']
  · simp [parse_field, hstar] at h
  · cases hu : parseU8 t with
    | some v => simp [parse_field, if_neg hstar, hu] at h
    | none =>
      cases hs : parse_step t with
      | some fs =>
        simp only [parse_field, if_neg hstar, hu, hs, Except.ok.injEq] at h
        obtain ⟨sv, s, hfs, -, -⟩ := parse_step_shape hs
        rw [hfs] at h
        exact absurd h (by simp)
      | none =>
        cases hl : parse_list t with
        | some its =>
          simp only [parse_field, if_neg hstar, hu, hs, hl, Except.ok.injEq] at h
          obtain rfl : its = items := by simpa using h
          rfl
        | none =>
          cases hr : parse_range t with
          | none => simp [parse_field, if_neg hstar, hu, hs, hl, hr] at h
          | some ab =>
            obtain ⟨a, b⟩ := ab
            simp [parse_field, if_neg hstar, hu, hs, hl, hr] at h

lemma parse_field_list_len {t : List Char} {items : List ListValue}
    (h : parse_field t = .ok (.list items)) : 2 ≤ items.length :=
  (parse_list_wf (parse_field_list_inv h)).1

lemma comma_mem_of_parse_list {t : List Char} {items : List ListValue}
    (h : parse_list t = some items) : (',' : Char) ∈ t := by
  cases hp : parseListItems (splitPred (fun c => c == ',') t) with
  | none => simp [parse_list, hp] at h
  | some its =>
    simp only [parse_list, hp] at h
    by_cases hl : its.length < 2
    · rw [if_pos hl] at h
      exact absurd h (by simp)
    · rw [if_neg hl] at h
      obtain rfl : its = items := by simpa using h
      have hsplen := (parseListItems_wf _ _ hp).1
      obtain ⟨c, hc, hpc⟩ := splitPred_sep_exists (fun c => c == ',') t (by omega)
      obtain rfl : c = ',' := by simpa using hpc
      exact hc

/-! The claims. -/

/-- C1: every expression successfully produced by the parser round-trips
through the formatter: re-parsing the formatted text succeeds and returns
a structurally equal expression, for all field kinds, with descending
ranges preserved verbatim. -/
theorem C1_parse_to_string_round_trip (l : List Char) (e : CronExpr)
    (h : CronExpr.parse l = .ok e) :
    CronExpr.parse (CronExpr.to_string e) = .ok e :=
  to_string_parse (parse_wf h)

theorem C1_parse_to_string_round_trip_witness :
    CronExpr.parse (CronExpr.to_string
      ⟨.value 30, .step (.range 0 30) 5, .list [.range 13 15, .value 18],
       .all, .all, .range 5 2⟩) =
      .ok ⟨.value 30, .step (.range 0 30) 5, .list [.range 13 15, .value 18],
           .all, .all, .range 5 2⟩ :=
  C1_parse_to_string_round_trip ("30 0-30/5 13-15,18\t* * 5-2".toList) _ (by decide)

/-- C2: refuted as stated — the parser accepts a zero step and the matcher
then reaches a remainder-by-zero fault (modelled here by the checker
returning none), so check_time is not total over parser-producible
expressions. -/
theorem C2_step_zero_fault :
    CronExpr.parse ("*/0 * * * * *".toList) =
      .ok ⟨.step .all 0, .all, .all, .all, .all, .all⟩ ∧
    CronExpr.check_time ⟨.step .all 0, .all, .all, .all, .all, .all⟩
      ⟨0, 0, 0, 1, .jan, .sun⟩ = none := ⟨by decide, by decide⟩

/-- C3: step matching for a positive step: over the All base a value
matches iff it is divisible by the step; over a Range base iff it lies
within the inclusive bounds and is congruent to the start modulo the step,
the bounds test running first; in particular 35 fails against 0-30/5
although 35 is divisible by 5. -/
theorem C3_step_semantics :
    (∀ step v : Nat, 0 < step →
      StepValue.check .all step v = some (decide (v % step = 0))) ∧
    (∀ lo hi step v : Nat, 0 < step →
      StepValue.check (.range lo hi) step v =
        some (decide (lo ≤ v ∧ v ≤ hi ∧ (v - lo) % step = 0))) ∧
    parse_field ("0-30/5".toList) = .ok (.step (.range 0 30) 5) ∧
    (Field.step (.range 0 30) 5).check 35 = some false ∧ 35 % 5 = 0 := by
  refine ⟨?_, ?_, by decide, by decide, by decide⟩
  · intro step v hs
    simp [StepValue.check, show step ≠ 0 from by omega]
  · intro lo hi step v hs
    have hsne : step ≠ 0 := by omega
    by_cases h1 : lo ≤ v
    · by_cases h2 : v ≤ hi
      · simp [StepValue.check, h1, h2, hsne]
      · simp [StepValue.check, h1, h2]
    · simp [StepValue.check, h1]

theorem C3_step_semantics_witness :
    StepValue.check (.range 0 30) 5 35 =
      some (decide (0 ≤ 35 ∧ 35 ≤ 30 ∧ (35 - 0) % 5 = 0)) :=
  C3_step_semantics.2.1 0 30 5 35 (by decide)

/-- C4: check_time is the short-circuit conjunction of the six per-field
checks in the order second, minute, hour, day, month, day-of-week, where
Any matches everything, Value matches exact equality, Range matches the
inclusive bounds and List matches when any item does; consequently the
all-Any expression matches every time value. -/
theorem C4_check_time_and :
    (∀ (e : CronExpr) (dt : DateTime) (b1 b2 b3 b4 b5 b6 : Bool),
      e.second.check dt.second = some b1 →
      e.minute.check dt.minute = some b2 →
      e.hour.check dt.hour = some b3 →
      e.day.check dt.day = some b4 →
      e.month.check dt.month.toU8 = some b5 →
      e.day_of_week.check dt.day_of_week.toU8 = some b6 →
      e.check_time dt = some (b1 && b2 && b3 && b4 && b5 && b6)) ∧
    (∀ (e : CronExpr) (dt : DateTime),
      e.second.check dt.second = some false → e.check_time dt = some false) ∧
    (∀ v : Nat, Field.all.check v = some true) ∧
    (∀ n v : Nat, (Field.value n).check v = some (decide (n = v))) ∧
    (∀ lo hi v : Nat, (Field.range lo hi).check v = some (decide (lo ≤ v ∧ v ≤ hi))) ∧
    (∀ (items : List ListValue) (v : Nat),
      (Field.list items).check v = some (items.any (fun it => it.check v))) ∧
    (∀ dt : DateTime,
      CronExpr.check_time ⟨.all, .all, .all, .all, .all, .all⟩ dt = some true) := by
  refine ⟨?_, ?_, fun v => rfl, fun n v => rfl, fun lo hi v => rfl,
          fun items v => rfl, fun dt => rfl⟩
  · intro e dt b1 b2 b3 b4 b5 b6 h1 h2 h3 h4 h5 h6
    simp only [CronExpr.check_time, h1, h2, h3, h4, h5, h6]
    cases b1 <;> cases b2 <;> cases b3 <;> cases b4 <;> cases b5 <;> cases b6 <;> rfl
  · intro e dt h1
    simp only [CronExpr.check_time, h1]
    rfl

theorem C4_check_time_and_witness :
    CronExpr.check_time ⟨.value 3, .all, .all, .all, .all, .all⟩
      ⟨3, 4, 5, 6, .jul, .fri⟩ = some (true && true && true && true && true && true) :=
  C4_check_time_and.1 ⟨.value 3, .all, .all, .all, .all, .all⟩ ⟨3, 4, 5, 6, .jul, .fri⟩
    true true true true true true (by decide) (by decide) (by decide) (by decide)
    (by decide) (by decide)

/-- C5 counterexample: parsing the expression whose day-of-week token is
99 does not fail with a field-level error as claimed — it succeeds, since
fields are parsed as plain u8 integers with no weekday-domain check. -/
theorem C5_counterexample_day_of_week_99 :
    CronExpr.parse ("* * * * * 99".toList) =
      .ok ⟨.all, .all, .all, .all, .all, .value 99⟩ := by decide

/-- C5 amended: the empty input fails with Empty, a three-token input
fails with Incomplete, and every failing parse returns exactly one of the
three error kinds with no partial result; but "* * * * * 99" parses
successfully with day-of-week Value 99, because field parsing is numeric
over the whole u8 domain and no symbolic weekday validation exists. -/
theorem C5_error_taxonomy :
    CronExpr.parse ("".toList) = .error .empty ∧
    CronExpr.parse ("* * *".toList) = .error .incomplete ∧
    CronExpr.parse ("* * * * * 99".toList) =
      .ok ⟨.all, .all, .all, .all, .all, .value 99⟩ ∧
    (∀ l : List Char, (∃ e, CronExpr.parse l = .ok e) ∨
      CronExpr.parse l = .error .empty ∨ CronExpr.parse l = .error .incomplete ∨
      CronExpr.parse l = .error .field) := by
  refine ⟨by decide, by decide, by decide, ?_⟩
  intro l
  cases h : CronExpr.parse l with
  | ok e => exact Or.inl ⟨e, rfl⟩
  | error err =>
    cases err with
    | empty => exact Or.inr (Or.inl rfl)
    | incomplete => exact Or.inr (Or.inr (Or.inl rfl))
    | field => exact Or.inr (Or.inr (Or.inr rfl))

/-- C6 counterexample: two inputs with identical fields, one separated by
single spaces and one with a double space, parse to different results, so
whitespace runs are not collapsed as the claim states. -/
theorem C6_counterexample_double_space :
    CronExpr.parse ("* * * * * *".toList) =
      .ok ⟨.all, .all, .all, .all, .all, .all⟩ ∧
    CronExpr.parse ("* * * * *  *".toList) = .error .field :=
  ⟨by decide, by decide⟩

/-- C6 amended: the parser splits at every single ASCII whitespace
character, not at runs; any two inputs whose six tokens are identical and
separated by exactly one whitespace character each (any mix of the ASCII
whitespace characters) parse to the same result, while consecutive
whitespace would instead produce an empty token. -/
theorem C6_single_separator_invariance
    (t1 t2 t3 t4 t5 t6 : List Char) (c1 c2 c3 c4 c5 : Char)
    (h1 : ∀ c ∈ t1, isWsChar c = false) (h2 : ∀ c ∈ t2, isWsChar c = false)
    (h3 : ∀ c ∈ t3, isWsChar c = false) (h4 : ∀ c ∈ t4, isWsChar c = false)
    (h5 : ∀ c ∈ t5, isWsChar c = false) (h6 : ∀ c ∈ t6, isWsChar c = false)
    (hc1 : isWsChar c1 = true) (hc2 : isWsChar c2 = true) (hc3 : isWsChar c3 = true)
    (hc4 : isWsChar c4 = true) (hc5 : isWsChar c5 = true) :
    CronExpr.parse (t1 ++ c1 :: (t2 ++ c2 :: (t3 ++ c3 :: (t4 ++ c4 :: (t5 ++ c5 :: t6)))))
      = CronExpr.parse
          (t1 ++ ' ' :: (t2 ++ ' ' :: (t3 ++ ' ' :: (t4 ++ ' ' :: (t5 ++ ' ' :: t6))))) := by
  have hsplit : ∀ d1 d2 d3 d4 d5 : Char, isWsChar d1 = true → isWsChar d2 = true →
      isWsChar d3 = true → isWsChar d4 = true → isWsChar d5 = true →
      splitPred isWsChar
          (t1 ++ d1 :: (t2 ++ d2 :: (t3 ++ d3 :: (t4 ++ d4 :: (t5 ++ d5 :: t6)))))
        = [t1, t2, t3, t4, t5, t6] := by
    intro d1 d2 d3 d4 d5 hd1 hd2 hd3 hd4 hd5
    rw [splitPred_append_sep _ _ _ _ h1 hd1, splitPred_append_sep _ _ _ _ h2 hd2,
        splitPred_append_sep _ _ _ _ h3 hd3, splitPred_append_sep _ _ _ _ h4 hd4,
        splitPred_append_sep _ _ _ _ h5 hd5, splitPred_noSep _ _ h6]
  have hne : ∀ (d1 : Char) (r : List Char), t1 ++ d1 :: r ≠ [] := by
    intro d1 r hnil
    have hlen := congrArg List.length hnil
    simp only [List.length_append, List.length_cons, List.length_nil] at hlen
    omega
  rw [CronExpr.parse, if_neg (hne c1 _), hsplit c1 c2 c3 c4 c5 hc1 hc2 hc3 hc4 hc5]
  rw [CronExpr.parse, if_neg (hne ' ' _),
      hsplit ' ' ' ' ' ' ' ' ' ' (by decide) (by decide) (by decide) (by decide) (by decide)]

theorem C6_single_separator_invariance_witness :
    CronExpr.parse (("30".toList) ++ '\t' :: (("0-30/5".toList) ++ '\t' ::
        (("13-15,18".toList) ++ '\t' :: (("*".toList) ++ '\t' ::
        (("*".toList) ++ '\t' :: ("1-5".toList))))))
      = CronExpr.parse (("30".toList) ++ ' ' :: (("0-30/5".toList) ++ ' ' ::
        (("13-15,18".toList) ++ ' ' :: (("*".toList) ++ ' ' ::
        (("*".toList) ++ ' ' :: ("1-5".toList)))))) :=
  C6_single_separator_invariance _ _ _ _ _ _ '\t' '\t' '\t' '\t' '\t'
    (by decide) (by decide) (by decide) (by decide) (by decide) (by decide)
    (by decide) (by decide) (by decide) (by decide) (by decide)

/-- C7: a field token never parses to a list with fewer than two items, a
token that parses to a list necessarily contains a comma (so a comma-free
single item never yields a List), the six fields of every successfully
parsed expression obey the plurality invariant, and "13-15,18" parses to
the two-item list Range(13,15), Value(18). -/
theorem C7_list_plurality :
    (∀ (t : List Char) (items : List ListValue),
      parse_field t = .ok (.list items) → 2 ≤ items.length) ∧
    (∀ (t : List Char) (items : List ListValue),
      parse_field t = .ok (.list items) → (',' : Char) ∈ t) ∧
    (∀ (l : List Char) (e : CronExpr), CronExpr.parse l = .ok e →
      e.second.listOk ∧ e.minute.listOk ∧ e.hour.listOk ∧
      e.day.listOk ∧ e.month.listOk ∧ e.day_of_week.listOk) ∧
    parse_field ("13-15,18".toList) = .ok (.list [.range 13 15, .value 18]) := by
  refine ⟨fun t items h => parse_field_list_len h,
          fun t items h => comma_mem_of_parse_list (parse_field_list_inv h),
          ?_, by decide⟩
  intro l e hp
  obtain ⟨-, t1, t2, t3, t4, t5, t6, rest, -, hf1, hf2, hf3, hf4, hf5, hf6⟩ :=
    parse_ok_inv hp
  refine ⟨?_, ?_, ?_, ?_, ?_, ?_⟩
  · intro items heq; rw [heq] at hf1; exact parse_field_list_len hf1
  · intro items heq; rw [heq] at hf2; exact parse_field_list_len hf2
  · intro items heq; rw [heq] at hf3; exact parse_field_list_len hf3
  · intro items heq; rw [heq] at hf4; exact parse_field_list_len hf4
  · intro items heq; rw [heq] at hf5; exact parse_field_list_len hf5
  · intro items heq; rw [heq] at hf6; exact parse_field_list_len hf6

theorem C7_list_plurality_witness :
    2 ≤ ([ListValue.range 13 15, ListValue.value 18] : List ListValue).length ∧
    (',' : Char) ∈ ("13-15,18".toList) :=
  ⟨C7_list_plurality.1 ("13-15,18".toList) [.range 13 15, .value 18] (by decide),
   C7_list_plurality.2.1 ("13-15,18".toList) [.range 13 15, .value 18] (by decide)⟩

/-- C8: a descending range token such as 5-2 is structurally accepted by
the parser without validation or swapping, and such a range never matches:
the plain Range check, a Step over a descending range, and a List item
over one all reject every value. -/
theorem C8_descending_range :
    parse_field ("5-2".toList) = .ok (.range 5 2) ∧
    (∀ lo hi v : Nat, hi < lo → (Field.range lo hi).check v = some false) ∧
    (∀ lo hi step v : Nat, hi < lo →
      StepValue.check (.range lo hi) step v = some false) ∧
    (∀ lo hi v : Nat, hi < lo → ListValue.check (.range lo hi) v = false) := by
  refine ⟨by decide, ?_, ?_, ?_⟩
  · intro lo hi v h
    simp [Field.check, show ¬ (lo ≤ v ∧ v ≤ hi) from by omega]
  · intro lo hi step v h
    simp [StepValue.check, show ¬ (lo ≤ v ∧ v ≤ hi) from by omega]
  · intro lo hi v h
    simp [ListValue.check, show ¬ (lo ≤ v ∧ v ≤ hi) from by omega]

theorem C8_descending_range_witness :
    (Field.range 5 2).check 3 = some false ∧
    StepValue.check (.range 5 2) 1 3 = some false ∧
    ListValue.check (.range 5 2) 3 = false :=
  ⟨C8_descending_range.2.1 5 2 3 (by decide),
   C8_descending_range.2.2.1 5 2 1 3 (by decide),
   C8_descending_range.2.2.2 5 2 3 (by decide)⟩

/-- C9: tokens beyond the sixth are silently ignored: whenever the
whitespace split of a non-empty input starts with six tokens that each
parse as fields, the whole parse succeeds with exactly those six fields,
whatever tokens follow. -/
theorem C9_extra_tokens_ignored (l : List Char)
    (t1 t2 t3 t4 t5 t6 : List Char) (rest : List (List Char))
    (f1 f2 f3 f4 f5 f6 : Field) (hl : l ≠ [])
    (hsp : splitPred isWsChar l = t1 :: t2 :: t3 :: t4 :: t5 :: t6 :: rest)
    (h1 : parse_field t1 = .ok f1) (h2 : parse_field t2 = .ok f2)
    (h3 : parse_field t3 = .ok f3) (h4 : parse_field t4 = .ok f4)
    (h5 : parse_field t5 = .ok f5) (h6 : parse_field t6 = .ok f6) :
    CronExpr.parse l = .ok ⟨f1, f2, f3, f4, f5, f6⟩ :=
  parse_of_tokens hl hsp h1 h2 h3 h4 h5 h6

theorem C9_extra_tokens_ignored_witness :
    CronExpr.parse ("* * * * * * junk !!".toList) =
      .ok ⟨.all, .all, .all, .all, .all, .all⟩ :=
  C9_extra_tokens_ignored ("* * * * * * junk !!".toList)
    ("*".toList) ("*".toList) ("*".toList) ("*".toList) ("*".toList) ("*".toList)
    [("junk".toList), ("!!".toList)] .all .all .all .all .all .all
    (by decide) (by decide) (by decide) (by decide) (by decide) (by decide)
    (by decide) (by decide)

/-- C10: a non-empty input consisting only of ASCII whitespace yields an
empty first token which fails every field-grammar form, so the parser
returns the Field error kind (not Empty and not Incomplete); consecutive
whitespace between fields likewise yields an empty token and Field. -/
theorem C10_whitespace_empty_token :
    (∀ l : List Char, l ≠ [] → (∀ c ∈ l, isWsChar c = true) →
      CronExpr.parse l = .error .field) ∧
    CronExpr.parse (" ".toList) = .error .field ∧
    CronExpr.parse ("* *  * * * *".toList) = .error .field := by
  refine ⟨?_, by decide, by decide⟩
  intro l hl hws
  cases l with
  | nil => exact absurd rfl hl
  | cons c cs =>
    have hsplit : splitPred isWsChar (c :: cs) = [] :: splitPred isWsChar cs :=
      splitPred_cons_sep _ _ _ (hws c (List.mem_cons_self _ _))
    rw [CronExpr.parse, if_neg hl, hsplit]
    rfl

theorem C10_whitespace_empty_token_witness :
    CronExpr.parse ("\t".toList) = .error .field :=
  C10_whitespace_empty_token.1 ("\t".toList) (by decide) (by decide)

end StructuralCron
